import Mathlib

/-!
Verification of `mkdocs_static_i18n/plugin.py` (the `I18n` mkdocs plugin).

The development embeds the plugin's post-build orchestration as executable
Lean functions over lists of characters (Python `str.replace` and friends),
association lists (template contexts and plugin event registries), and an
explicit world state for the `mkdocs.utils.clean_directory` monkeypatch.
-/

/-- Python `s.replace(old, new)` (replace every non-overlapping occurrence,
scanning left to right), implemented with explicit fuel so the function is
structurally recursive and kernel-evaluable.  When the fuel is at least
`s.length` the fuel never runs out. -/
def replaceAllF (old new : List Char) : Nat → List Char → List Char
  | _, [] => []
  | 0, s => s
  | fuel+1, c :: t =>
    if !old.isEmpty && old.isPrefixOf (c :: t) then
      new ++ replaceAllF old new fuel ((c :: t).drop old.length)
    else
      c :: replaceAllF old new fuel t

/-- Python `s.replace(old, new)`: replace all occurrences of `old` in `s`
by `new` (used by the post-build JavaScript patch, line 313 of
`plugin.py`, and by `link.replace("./", "")`). -/
def replaceAll (old new s : List Char) : List Char :=
  replaceAllF old new s.length s

/-- Python `s.replace(old, new, 1)`: replace only the first occurrence
(used by `on_post_template` line 182 and `on_post_page` line 214). -/
def replace1 (old new : List Char) : List Char → List Char
  | [] => []
  | c :: t =>
    if !old.isEmpty && old.isPrefixOf (c :: t) then
      new ++ (c :: t).drop old.length
    else
      c :: replace1 old new t

/-- Executable infix (substring) test on character lists. -/
def isInfixB (p : List Char) : List Char → Bool
  | [] => p.isEmpty
  | c :: t => p.isPrefixOf (c :: t) || isInfixB p t

theorem isInfixB_iff (p s : List Char) : isInfixB p s = true ↔ p <:+: s := by
  induction s with
  | nil =>
    simp [isInfixB, List.isEmpty_iff, List.infix_nil]
  | cons c t ih =>
    simp only [isInfixB, Bool.or_eq_true, List.isPrefixOf_iff_prefix, ih,
      List.infix_cons_iff]

theorem replaceAllF_eq_length (old new : List Char) :
    ∀ (f : Nat) (s : List Char), s.length ≤ f →
      replaceAllF old new f s = replaceAllF old new s.length s := by
  intro f
  induction f using Nat.strong_induction_on with
  | _ f ih =>
    intro s hs
    match s with
    | [] => cases f <;> rfl
    | c :: t =>
      obtain ⟨f', rfl⟩ : ∃ f', f = f' + 1 := by
        cases f with
        | zero => simp at hs
        | succ n => exact ⟨n, rfl⟩
      show replaceAllF old new (f' + 1) (c :: t) =
        replaceAllF old new (t.length + 1) (c :: t)
      simp only [replaceAllF]
      by_cases hb : (!old.isEmpty && old.isPrefixOf (c :: t)) = true
      · rw [if_pos hb, if_pos hb]
        have hone : 1 ≤ old.length := by
          rcases old with _ | ⟨a, o⟩
          · simp at hb
          · simp
        have hs' : t.length + 1 ≤ f' + 1 := by
          simpa using hs
        have hd : ((c :: t).drop old.length).length = t.length + 1 - old.length := by
          simp
        have hlen1 : ((c :: t).drop old.length).length ≤ f' := by
          omega
        have hlen2 : ((c :: t).drop old.length).length ≤ t.length := by
          omega
        rw [ih f' (by omega) _ hlen1, ih t.length (by omega) _ hlen2]
      · rw [if_neg hb, if_neg hb]
        have h1 : t.length ≤ f' := by
          have hs' : t.length + 1 ≤ f' + 1 := by
            simpa using hs
          omega
        rw [ih f' (by omega) t h1, ih t.length (by omega) t (by omega)]

theorem replaceAll_nil (old new : List Char) : replaceAll old new [] = [] := rfl

theorem replaceAll_cons (old new : List Char) (c : Char) (t : List Char) :
    replaceAll old new (c :: t) =
      if !old.isEmpty && old.isPrefixOf (c :: t) then
        new ++ replaceAll old new ((c :: t).drop old.length)
      else
        c :: replaceAll old new t := by
  show replaceAllF old new (t.length + 1) (c :: t) = _
  simp only [replaceAllF]
  by_cases hb : (!old.isEmpty && old.isPrefixOf (c :: t)) = true
  · rw [if_pos hb, if_pos hb]
    have hone : 1 ≤ old.length := by
      rcases old with _ | ⟨a, o⟩
      · simp at hb
      · simp
    have hlen2 : ((c :: t).drop old.length).length ≤ t.length := by
      simp only [List.length_drop, List.length_cons]
      omega
    rw [replaceAllF_eq_length old new t.length _ hlen2]
    rfl
  · rw [if_neg hb, if_neg hb]
    rfl

theorem replaceAll_pos {old : List Char} (new : List Char) {s : List Char}
    (h0 : old ≠ []) (hp : old <+: s) :
    replaceAll old new s = new ++ replaceAll old new (s.drop old.length) := by
  match s with
  | [] =>
    exact absurd ( List.prefix_nil.mp hp) h0
  | c :: t =>
    rw [replaceAll_cons]
    rw [if_pos]
    simp only [Bool.and_eq_true, Bool.not_eq_true', List.isPrefixOf_iff_prefix,
      List.isEmpty_eq_false]
    exact ⟨h0, hp⟩

theorem replaceAll_neg {old : List Char} (new : List Char) {c : Char}
    {t : List Char} (h : ¬(old ≠ [] ∧ old <+: (c :: t))) :
    replaceAll old new (c :: t) = c :: replaceAll old new t := by
  rw [replaceAll_cons, if_neg]
  simp only [Bool.and_eq_true, Bool.not_eq_true', List.isPrefixOf_iff_prefix,
    List.isEmpty_eq_false]
  intro hc
  exact h ⟨hc.1, hc.2⟩

theorem prefix_inf {l1 l2 : List Char} (h : l1 <+: l2) : l1 <:+: l2 := by
  obtain ⟨t, ht⟩ := h
  exact ⟨[], t, by simpa using ht⟩

/-- With no occurrence of the (nonempty) pattern, `replaceAll` is the
identity. -/
theorem replaceAll_eq_self_of_not_infix {old : List Char} (new : List Char)
    {s : List Char} (h : ¬ old <:+: s) : replaceAll old new s = s := by
  induction s with
  | nil => rfl
  | cons c t ih =>
    have hnp : ¬ old <+: (c :: t) := fun hp => h (prefix_inf hp)
    rw [replaceAll_neg new (fun hh => hnp hh.2)]
    rw [ih (fun hi => h ( List.infix_cons hi))]

theorem prefix_append_left {b a x : List Char} (h : b <+: a ++ x)
    (hl : b.length ≤ a.length) : b <+: a := by
  rw [ List.prefix_iff_eq_take] at h
  rw [List.take_append_of_le_length hl] at h
  exact h ▸ List.take_prefix _ _

theorem infix_append_cases {l : List Char} :
    ∀ (a b : List Char), l <:+: (a ++ b) →
      l <:+: a ∨ l <:+: b ∨
        ∃ j, 0 < j ∧ j < l.length ∧ l.take j <:+ a ∧ l.drop j <+: b := by
  intro a
  induction a with
  | nil =>
    intro b h
    exact Or.inr (Or.inl (by simpa using h))
  | cons x a' ih =>
    intro b h
    rw [List.cons_append, List.infix_cons_iff] at h
    rcases h with hpre | hinf
    · have hpre' : l <+: (x :: a') ++ b := hpre
      by_cases hl : l.length ≤ (x :: a').length
      · exact Or.inl (prefix_inf (prefix_append_left hpre' hl))
      · push_neg at hl
        obtain ⟨r, hr⟩ := hpre'
        refine Or.inr (Or.inr ⟨(x :: a').length, by simp, hl, ?_, ?_⟩)
        · have h1 : (l ++ r).take (x :: a').length = l.take (x :: a').length := by
            exact List.take_append_of_le_length (Nat.le_of_lt hl)
          have h2 : ((x :: a') ++ b).take (x :: a').length = x :: a' :=
            List.take_left _ _
          rw [hr] at h1
          rw [h2] at h1
          exact h1 ▸ List.suffix_refl _
        · have h1 : (l ++ r).drop (x :: a').length = l.drop (x :: a').length ++ r := by
            exact List.drop_append_of_le_length (Nat.le_of_lt hl)
          have h2 : ((x :: a') ++ b).drop (x :: a').length = b :=
            List.drop_left _ _
          rw [hr, h2] at h1
          exact ⟨r, h1.symm⟩
    · rcases ih b hinf with h1 | h2 | ⟨j, hj0, hjl, hs, hp⟩
      · exact Or.inl ( List.infix_cons h1)
      · exact Or.inr (Or.inl h2)
      · exact Or.inr (Or.inr ⟨j, hj0, hjl, hs.trans (List.suffix_cons x a'), hp⟩)

/-- Overlap-freedom conditions under which the replacement pattern can
never reoccur after a full `replaceAll` pass: the pattern is nonempty and
shorter than its replacement, is not a substring of the replacement, no
nonempty proper suffix of the pattern is a prefix of the replacement, and
no nonempty proper prefix of the pattern is a suffix of the replacement. -/
structure NoReoccur (old new : List Char) : Prop where
  ne_nil : old ≠ []
  len_lt : old.length < new.length
  not_infix : ¬ old <:+: new
  no_suffix_prefix : ∀ j, 0 < j → j < old.length → ¬ old.drop j <+: new
  no_prefix_suffix : ∀ j, 0 < j → j < old.length → ¬ old.take j <:+ new

/-- Executable check for `NoReoccur`. -/
def noReoccurB (old new : List Char) : Bool :=
  !old.isEmpty && decide (old.length < new.length) && !(isInfixB old new) &&
    (List.range old.length).all
      (fun j => decide (j = 0) || !((old.drop j).isPrefixOf new)) &&
    (List.range old.length).all
      (fun j => decide (j = 0) || !((old.take j).isSuffixOf new))

theorem noReoccurB_sound {old new : List Char} (h : noReoccurB old new = true) :
    NoReoccur old new := by
  simp only [noReoccurB, Bool.and_eq_true, Bool.not_eq_true', List.all_eq_true,
    List.mem_range, Bool.or_eq_true, decide_eq_true_eq, List.isEmpty_eq_false,
    Bool.not_eq_true] at h
  obtain ⟨⟨⟨⟨h0, h1⟩, h2⟩, h3⟩, h4⟩ := h
  refine ⟨h0, h1, ?_, ?_, ?_⟩
  · intro hc
    rw [← isInfixB_iff] at hc
    rw [h2] at hc
    exact Bool.false_ne_true hc
  · intro j hj0 hjl hc
    rcases h3 j hjl with he | hb
    · omega
    · rw [← List.isPrefixOf_iff_prefix] at hc
      rw [hb] at hc
      exact Bool.false_ne_true hc
  · intro j hj0 hjl hc
    rcases h4 j hjl with he | hb
    · omega
    · rw [← List.isSuffixOf_iff_suffix] at hc
      rw [hb] at hc
      exact Bool.false_ne_true hc

theorem prefix_cons_split {b : List Char} {x : Char} {m : List Char}
    (hb : b ≠ []) (h : b <+: x :: m) :
    b.take 1 = [x] ∧ b.drop 1 <+: m := by
  obtain ⟨r, hr⟩ := h
  have h1 : 1 ≤ b.length := List.length_pos.mpr hb
  constructor
  · have ht : (b ++ r).take 1 = b.take 1 := List.take_append_of_le_length h1
    rw [hr] at ht
    simpa using ht.symm
  · have hd : (b ++ r).drop 1 = b.drop 1 ++ r := List.drop_append_of_le_length h1
    rw [hr] at hd
    simp only [List.drop_succ_cons, List.drop_zero] at hd
    exact ⟨r, hd.symm⟩

theorem prefix_cons_build {b : List Char} {x : Char} {m : List Char}
    (ht : b.take 1 = [x]) (hd : b.drop 1 <+: m) : b <+: x :: m := by
  obtain ⟨q, hq⟩ := hd
  refine ⟨q, ?_⟩
  conv_lhs => rw [← List.take_append_drop 1 b]
  rw [ht, List.append_assoc, hq]
  rfl

theorem drop_prefix_replaceAll {old new : List Char} (hc : NoReoccur old new) :
    ∀ (n : Nat) (s : List Char), s.length ≤ n → ∀ j, 0 < j →
      old.drop j <+: replaceAll old new s → old.drop j <+: s := by
  intro n
  induction n with
  | zero =>
    intro s hs j hj0 hp
    have hnil : s = [] := List.length_eq_zero.mp (Nat.le_zero.mp hs)
    subst hnil
    rwa [replaceAll_nil] at hp
  | succ n ih =>
    intro s hs j hj0 hp
    by_cases hmatch : old <+: s
    · rw [replaceAll_pos new hc.ne_nil hmatch] at hp
      by_cases hjlen : j < old.length
      · have hble : (old.drop j).length ≤ new.length := by
          have := hc.len_lt
          simp only [List.length_drop]
          omega
        exact absurd (prefix_append_left hp hble)
          (hc.no_suffix_prefix j hj0 hjlen)
      · have hde : old.drop j = [] := List.drop_eq_nil_of_le (by omega)
        rw [hde]
        exact List.nil_prefix
    · match s with
      | [] =>
        rwa [replaceAll_nil] at hp
      | c :: t =>
        rw [replaceAll_neg new (fun hh => hmatch hh.2)] at hp
        by_cases hde : old.drop j = []
        · rw [hde]
          exact List.nil_prefix
        · obtain ⟨htake, hdrop⟩ := prefix_cons_split hde hp
          have hj1 : (old.drop j).drop 1 = old.drop (j + 1) :=
            List.drop_drop 1 j old
          rw [hj1] at hdrop
          have ht : t.length ≤ n := by
            have hlc : (c :: t).length ≤ n + 1 := hs
            simp only [List.length_cons] at hlc
            omega
          have hrec := ih t ht (j + 1) (by omega) hdrop
          exact prefix_cons_build htake (by rw [hj1]; exact hrec)

/-- After a full `replaceAll` pass under the `NoReoccur` conditions, the
pattern does not occur in the result. -/
theorem not_infix_replaceAll {old new : List Char} (hc : NoReoccur old new) :
    ∀ (n : Nat) (s : List Char), s.length ≤ n →
      ¬ old <:+: replaceAll old new s := by
  intro n
  induction n with
  | zero =>
    intro s hs hinf
    have hnil : s = [] := List.length_eq_zero.mp (Nat.le_zero.mp hs)
    subst hnil
    rw [replaceAll_nil] at hinf
    exact hc.ne_nil ( List.infix_nil.mp hinf)
  | succ n ih =>
    intro s hs hinf
    by_cases hmatch : old <+: s
    · rw [replaceAll_pos new hc.ne_nil hmatch] at hinf
      rcases infix_append_cases new _ hinf with h1 | h2 | ⟨j, hj0, hjl, hsuf, _⟩
      · exact hc.not_infix h1
      · have hone : 1 ≤ old.length := List.length_pos.mpr hc.ne_nil
        have h2' : old.length ≤ s.length := hmatch.length_le
        have hslen : (s.drop old.length).length ≤ n := by
          simp only [List.length_drop]
          omega
        exact ih _ hslen h2
      · exact hc.no_prefix_suffix j hj0 hjl hsuf
    · match s with
      | [] =>
        rw [replaceAll_nil] at hinf
        exact hc.ne_nil ( List.infix_nil.mp hinf)
      | c :: t =>
        rw [replaceAll_neg new (fun hh => hmatch hh.2)] at hinf
        rw [ List.infix_cons_iff] at hinf
        have ht : t.length ≤ n := by
          have hlc : (c :: t).length ≤ n + 1 := hs
          simp only [List.length_cons] at hlc
          omega
        rcases hinf with hpre | hinf'
        · obtain ⟨htake, hdrop⟩ := prefix_cons_split hc.ne_nil hpre
          have hrec := drop_prefix_replaceAll hc t.length t (Nat.le_refl _) 1
            (by omega) hdrop
          exact hmatch (prefix_cons_build htake hrec)
        · exact ih t ht hinf'

/-- Idempotence of a single substitution pair under the `NoReoccur`
conditions: a second `replaceAll` pass leaves the patched text unchanged. -/
theorem replaceAll_idem {old new : List Char} (hc : NoReoccur old new)
    (s : List Char) :
    replaceAll old new (replaceAll old new s) = replaceAll old new s :=
  replaceAll_eq_self_of_not_infix new
    (not_infix_replaceAll hc s.length s (Nat.le_refl s.length))

/-! ### The post-build JavaScript substitution pairs (`plugin.py` 279-308) -/

/-- Pattern `'"search/search_index.json"'` (material theme pair, line 282). -/
def searchIndexOld : List Char := ("\"search/search_index.json\"").toList

def searchIndexNew : List Char :=
  ("`$\x7bi18n_link\x7dsearch/search_index.json`").toList

/-- First non-material pair (line 292): `old` is a strict prefix of `new`. -/
def basePathOld : List Char :=
  ("base_path = \x27function\x27 === typeof importScripts ? \x27.\x27 : \x27/search/\x27;").toList

def basePathNew : List Char :=
  ("base_path = \x27function\x27 === typeof importScripts ? \x27.\x27 : \x27/search/\x27; let i18n_link;").toList

/-- Third non-material pair (line 296): `old` is a strict prefix of `new`. -/
def initHandlerOld : List Char := ("if (e.data.init) \x7b").toList

def initHandlerNew : List Char :=
  ("if (e.data.init) \x7b i18n_link = e.data.i18n_link;").toList

/-- The `replace_pairs` list for the material theme (line 281-283). -/
def materialReplacePairs : List (List Char × List Char) :=
  [(searchIndexOld, searchIndexNew)]

/-- The `replace_pairs` list for every other theme (line 290-308). -/
def otherReplacePairs : List (List Char × List Char) :=
  [(basePathOld, basePathNew),
   (("(\x7binit: true\x7d);").toList,
    ("(\x7binit: true, i18n_link: i18n_link\x7d);").toList),
   (initHandlerOld, initHandlerNew),
   (("\"GET\", index_path").toList,
    ("\"GET\", `../$\x7bi18n_link\x7dsearch/search_index.json`").toList),
   ((".push(\x27lunr.stemmer.support.js\x27);").toList,
    (".push(`../$\x7bi18n_link\x7dsearch/lunr.stemmer.support.js`);").toList),
   ((".push(\x27lunr.multi.js\x27);").toList,
    (".push(`../$\x7bi18n_link\x7dsearch/lunr.multi.js`);").toList),
   ((".push(\x27tinyseg.js\x27);").toList,
    (".push(`../$\x7bi18n_link\x7dsearch/tinyseg.js`);").toList),
   ((".push([\x27lunr\x27, lang[i], \x27js\x27].join(\x27.\x27));").toList,
    (".push([`../$\x7bi18n_link\x7dsearch/lunr`, lang[i], \x27js\x27].join(\x27.\x27));").toList)]

/-- The `if config.theme.name == "material"` selection at line 279. -/
def replacePairsFor (themeName : String) : List (List Char × List Char) :=
  if themeName == "material" then materialReplacePairs else otherReplacePairs

/-- C3 counterexample: for the third non-material substitution pair
(`if (e.data.init) {`), the replacement contains the original substring, so
on a JavaScript text equal to that original substring a second application
of the patch changes the already-patched text, and the original substring
still occurs in the patched text. -/
theorem C3_counterexample :
    (initHandlerOld, initHandlerNew) ∈ replacePairsFor ("mkdocs") ∧
    initHandlerOld <:+:
      replaceAll initHandlerOld initHandlerNew initHandlerOld ∧
    replaceAll initHandlerOld initHandlerNew
        (replaceAll initHandlerOld initHandlerNew initHandlerOld) ≠
      replaceAll initHandlerOld initHandlerNew initHandlerOld := by
  refine ⟨by decide, ?_, by decide⟩
  rw [← isInfixB_iff]
  rfl

/-- C3 (amended): for the material substitution pair and for every
non-material pair except the first (`base_path`) and third
(`if (e.data.init) {`) — whose replacement strings contain the original
substring as a strict prefix — a second application of the substring
replacement leaves any already-patched JavaScript text unchanged. -/
theorem C3_amended :
    (∀ p ∈ materialReplacePairs, ∀ s : List Char,
        replaceAll p.1 p.2 (replaceAll p.1 p.2 s) = replaceAll p.1 p.2 s) ∧
    (∀ p ∈ otherReplacePairs,
        p ≠ (basePathOld, basePathNew) → p ≠ (initHandlerOld, initHandlerNew) →
        ∀ s : List Char,
          replaceAll p.1 p.2 (replaceAll p.1 p.2 s) = replaceAll p.1 p.2 s) ∧
    basePathOld <+: basePathNew ∧ initHandlerOld <+: initHandlerNew := by
  refine ⟨?_, ?_, by decide, by decide⟩
  · intro p hp s
    rw [materialReplacePairs, List.mem_singleton] at hp
    subst hp
    exact replaceAll_idem (noReoccurB_sound (by decide)) s
  · intro p hp h1 h3 s
    rw [otherReplacePairs] at hp
    simp only [List.mem_cons, List.not_mem_nil, or_false] at hp
    rcases hp with hp | hp | hp | hp | hp | hp | hp | hp
    · exact absurd hp h1
    · subst hp
      exact replaceAll_idem (noReoccurB_sound (by decide)) s
    · exact absurd hp h3
    · subst hp
      exact replaceAll_idem (noReoccurB_sound (by decide)) s
    · subst hp
      exact replaceAll_idem (noReoccurB_sound (by decide)) s
    · subst hp
      exact replaceAll_idem (noReoccurB_sound (by decide)) s
    · subst hp
      exact replaceAll_idem (noReoccurB_sound (by decide)) s
    · subst hp
      exact replaceAll_idem (noReoccurB_sound (by decide)) s

/-- Witness for `C3_amended` at the material pair and a concrete text. -/
theorem C3_amended_witness :
    replaceAll searchIndexOld searchIndexNew
        (replaceAll searchIndexOld searchIndexNew
          (("var p = \"search/search_index.json\";").toList)) =
      replaceAll searchIndexOld searchIndexNew
        (("var p = \"search/search_index.json\";").toList) :=
  C3_amended.1 (searchIndexOld, searchIndexNew) (by decide)
    (("var p = \"search/search_index.json\";").toList)

/-! ### The per-pair file loop of the post-build patch (`plugin.py` 310-322) -/

/-- One substitution pair applied to the globbed `.js` files (inner loop,
lines 311-317): scan the files in order, rewrite the first file whose
content changes under the replacement and stop; if no file changes, the
`for`-`else` branch fires (second component `true` means the error was
logged, line 318-322). -/
def patchFiles (old new : List Char) :
    List (String × List Char) → List (String × List Char) × Bool
  | [] => ([], true)
  | f :: fs =>
    if replaceAll old new f.2 == f.2 then
      (f :: (patchFiles old new fs).1, (patchFiles old new fs).2)
    else
      ((f.1, replaceAll old new f.2) :: fs, false)

/-- The outer loop over `replace_pairs` (line 310): each pair is applied to
the (possibly already rewritten) files; the second component counts logged
errors.  The function is total: a missing pattern never raises. -/
def applyReplacePairs :
    List (List Char × List Char) → List (String × List Char) →
      List (String × List Char) × Nat
  | [], files => (files, 0)
  | p :: ps, files =>
    ((applyReplacePairs ps (patchFiles p.1 p.2 files).1).1,
     (applyReplacePairs ps (patchFiles p.1 p.2 files).1).2 +
       (if (patchFiles p.1 p.2 files).2 then 1 else 0))

/-- C6: when no JavaScript file contains a pair's old substring, the files
are left unchanged, the error is logged (the `for`-`else` branch), and the
loop proceeds with the remaining substitution pairs: the final result is
that of the remaining pairs, with one more logged error.  No exception is
raised (the model is a total function). -/
theorem C6_missing_pattern (old new : List Char)
    (ps : List (List Char × List Char)) (files : List (String × List Char))
    (h : ∀ f ∈ files, ¬ old <:+: f.2) :
    patchFiles old new files = (files, true) ∧
    applyReplacePairs ((old, new) :: ps) files =
      ((applyReplacePairs ps files).1, (applyReplacePairs ps files).2 + 1) := by
  have hp : ∀ fl : List (String × List Char),
      (∀ f ∈ fl, ¬ old <:+: f.2) → patchFiles old new fl = (fl, true) := by
    intro fl
    induction fl with
    | nil =>
      intro h2
      rfl
    | cons f fs ih =>
      intro h2
      have hf : replaceAll old new f.2 = f.2 :=
        replaceAll_eq_self_of_not_infix new (h2 f (List.mem_cons_self f fs))
      simp only [patchFiles, hf, beq_self_eq_true, if_true]
      rw [ih (fun g hg => h2 g (List.mem_cons_of_mem f hg))]
  refine ⟨hp files h, ?_⟩
  simp only [applyReplacePairs]
  rw [hp files h]
  simp

/-- Witness for `C6_missing_pattern`: a single file without the material
pattern is untouched and the error counter increments. -/
theorem C6_witness :
    patchFiles searchIndexOld searchIndexNew
        [(("main.js" : String), ("var x = 1;").toList)] =
      ([(("main.js" : String), ("var x = 1;").toList)], true) ∧
    applyReplacePairs [(searchIndexOld, searchIndexNew)]
        [(("main.js" : String), ("var x = 1;").toList)] =
      ([(("main.js" : String), ("var x = 1;").toList)], 1) := by
  have h := C6_missing_pattern searchIndexOld searchIndexNew []
    [(("main.js" : String), ("var x = 1;").toList)]
    (by
      intro f hf
      rw [List.mem_singleton] at hf
      subst hf
      rw [← isInfixB_iff]
      simp only [Bool.not_eq_true]
      rfl)
  exact ⟨h.1, h.2⟩

theorem countP_zip_self (l : List (String × List Char)) :
    (l.zip l).countP (fun q => !(q.1 == q.2)) = 0 := by
  induction l with
  | nil => rfl
  | cons a l ih =>
    simp [List.zip_cons_cons, List.countP_cons, ih]

/-- C8: per substitution pair, the file scan preserves the number of files
and modifies at most one of them — every other file is byte-for-byte
unchanged. -/
theorem C8_frame (old new : List Char) (files : List (String × List Char)) :
    (patchFiles old new files).1.length = files.length ∧
    (files.zip (patchFiles old new files).1).countP
        (fun q => !(q.1 == q.2)) ≤ 1 := by
  induction files with
  | nil =>
    exact ⟨rfl, by simp [patchFiles]⟩
  | cons f fs ih =>
    by_cases hb : (replaceAll old new f.2 == f.2) = true
    · simp only [patchFiles]
      rw [if_pos hb]
      refine ⟨by simp [ih.1], ?_⟩
      have h2 := ih.2
      simp only [List.zip_cons_cons, List.countP_cons]
      simpa using h2
    · simp only [patchFiles]
      rw [if_neg hb]
      refine ⟨by simp, ?_⟩
      have hz := countP_zip_self fs
      simp only [List.zip_cons_cons, List.countP_cons, hz]
      split <;> omega

/-! ### The multi-locale rebuild loop (`plugin.py` 247-270) -/

/-- The `for locale in self.build_languages` loop, lines 247-250: an entry
equal to `self.current_language` is skipped (`continue`); otherwise
`self.current_language` is reassigned to the entry before `build` is
invoked, so later comparisons are against the most recently built locale.
Returns the list of locales passed to `build`, in order. -/
def buildsDriven (cur : String) : List String → List String
  | [] => []
  | l :: ls => if l == cur then buildsDriven cur ls else l :: buildsDriven l ls

/-- Modelled from the spec: the per-locale output directory assigned by
`reconfigure_mkdocs_config` (module `mkdocs_static_i18n/reconfigure.py`,
which is not part of the sources) when the freshly loaded internal
configuration is built; spec section 6: "per-locale subdirectories under
the site output root".  Paths are modelled as component lists. -/
def localeSiteDir (root : List String) (locale : String) : List String :=
  root ++ [locale]

/-- Total number of executions of the rebuild loop of `on_post_build` in
the whole call tree of one invocation: the guard at lines 225-228 returns
immediately when `building` is set; otherwise `building` becomes `True`
(line 228, never reset here) before the loop runs, so each nested
`build(internal_config)` re-enters `on_post_build` with the flag set. -/
def onPostBuildLoopRuns (building : Bool) (cur : String)
    (langs : List String) : Nat :=
  if building then 0
  else
    1 + ((buildsDriven cur langs).map
      (fun l => onPostBuildLoopRuns true l langs)).sum
termination_by (if building then 0 else 1)
decreasing_by simp_all

/-- Number of `build(internal_config)` calls issued directly by one
`on_post_build` invocation: zero when the re-entry guard fires. -/
def onPostBuildBuildCalls (building : Bool) (cur : String)
    (langs : List String) : Nat :=
  if building then 0 else (buildsDriven cur langs).length

theorem onPostBuildLoopRuns_guarded (cur : String) (langs : List String) :
    onPostBuildLoopRuns true cur langs = 0 := by
  rw [onPostBuildLoopRuns]
  simp

/-- C1: a guarded entry returns immediately — no nested build call and no
loop execution — and consequently the rebuild loop runs at most once per
top-level invocation, over the whole nested call tree. -/
theorem C1_reentry_guard :
    (∀ (cur : String) (langs : List String),
        onPostBuildBuildCalls true cur langs = 0 ∧
        onPostBuildLoopRuns true cur langs = 0) ∧
    (∀ (building : Bool) (cur : String) (langs : List String),
        onPostBuildLoopRuns building cur langs ≤ 1) := by
  constructor
  · intro cur langs
    exact ⟨rfl, onPostBuildLoopRuns_guarded cur langs⟩
  · intro building cur langs
    cases building with
    | true =>
      rw [onPostBuildLoopRuns_guarded]
      omega
    | false =>
      rw [onPostBuildLoopRuns]
      simp only [if_false, Bool.false_eq_true]
      have hz : ((buildsDriven cur langs).map
          (fun l => onPostBuildLoopRuns true l langs)).sum = 0 := by
        apply List.sum_eq_zero
        intro x hx
        rw [List.mem_map] at hx
        obtain ⟨l, _, hl⟩ := hx
        rw [← hl]
        exact onPostBuildLoopRuns_guarded l langs
      omega

theorem buildsDriven_of_not_mem {cur : String} :
    ∀ {ls : List String}, cur ∉ ls → ls.Nodup → buildsDriven cur ls = ls := by
  intro ls
  induction ls generalizing cur with
  | nil =>
    intro _ _
    rfl
  | cons l ls ih =>
    intro hmem hnd
    have hne : (l == cur) = false := by
      simp only [beq_eq_false_iff_ne, ne_eq]
      intro he
      exact hmem (he ▸ List.mem_cons_self l ls)
    rw [List.nodup_cons] at hnd
    simp only [buildsDriven, hne, Bool.false_eq_true, if_false]
    rw [ih hnd.1 hnd.2]

/-- C5 counterexample: with `build_languages = ["fr", "en"]` and current
(already built) language `"en"`, the loop drives builds for `"fr"` and
then for `"en"` itself — the already-built default is rebuilt, not
skipped, because `current_language` was reassigned to `"fr"`. -/
theorem C5_counterexample :
    buildsDriven ("en") (["fr", "en"]) = ["fr", "en"] ∧
    ("en") ∈ buildsDriven ("en") (["fr", "en"]) ∧
    buildsDriven ("en") (["fr", "en"]) ≠ ["fr"] := by
  refine ⟨by decide, by decide, by decide⟩

/-- C5 (amended): entries are skipped only while they equal the most
recently built locale, so when `build_languages` begins with the current
(default) language and the remaining languages are pairwise distinct and
different from it, exactly one build per remaining language is driven, in
order, the default is never rebuilt, and each driven build targets the
per-locale subdirectory of the site root, distinct from the default build
directory. -/
theorem C5_amended (d : String) (rest : List String) (root : List String)
    (hd : d ∉ rest) (hnd : rest.Nodup) :
    buildsDriven d (d :: rest) = rest ∧
    d ∉ buildsDriven d (d :: rest) ∧
    ∀ l ∈ buildsDriven d (d :: rest), localeSiteDir root l ≠ root := by
  have h1 : buildsDriven d (d :: rest) = rest := by
    simp only [buildsDriven, beq_self_eq_true, if_true]
    exact buildsDriven_of_not_mem hd hnd
  refine ⟨h1, by rw [h1]; exact hd, ?_⟩
  intro l _ hroot
  have : (root ++ [l]).length = root.length := congrArg List.length hroot
  simp at this

/-- Witness for `C5_amended` at a concrete configuration. -/
theorem C5_witness :
    buildsDriven ("en") (["en", "fr", "de"]) = ["fr", "de"] ∧
    ("en") ∉ buildsDriven ("en") (["en", "fr", "de"]) ∧
    ∀ l ∈ buildsDriven ("en") (["en", "fr", "de"]),
      localeSiteDir (["site"]) l ≠ ["site"] :=
  C5_amended ("en") (["fr", "de"]) (["site"]) (by decide) (by decide)

/-! ### The `mkdocs.utils.clean_directory` monkeypatch (`plugin.py` 240-245, 327-329) -/

/-- The value bound to `mkdocs.utils.clean_directory`: the library original
or the `lambda x: x` no-op installed at line 245. -/
inductive CleanDirFn
  | original
  | noop
  deriving DecidableEq

/-- The observable world of `on_post_build`: the current binding of
`mkdocs.utils.clean_directory`. -/
structure BuildWorld where
  cleanDir : CleanDirFn
  deriving DecidableEq

/-- The per-locale `build(internal_config)` calls of the rebuild loop: a
build either completes or raises; it never touches the
`clean_directory` binding itself (it only calls through it).  An
exception propagates immediately, carrying the world state. -/
def runLocaleBuilds : List Bool → BuildWorld → Except BuildWorld BuildWorld
  | [], w => Except.ok w
  | r :: rs, w => if r then Except.error w else runLocaleBuilds rs w

/-- Hook `on_post_build` as far as the `clean_directory` binding is concerned:
save the original (line 244), install the no-op (line 245), run the
per-locale builds (line 270) and the JavaScript patching (lines 310-322,
abstracted to the flag `jsRaises`), and restore the saved value (line 329).
There is no `try`/`finally`: an exception anywhere in between propagates
with the no-op still installed. -/
def onPostBuildCleanDir (buildRaises : List Bool) (jsRaises : Bool)
    (w : BuildWorld) : Except BuildWorld BuildWorld :=
  match runLocaleBuilds buildRaises { cleanDir := CleanDirFn.noop } with
  | Except.error w2 => Except.error w2
  | Except.ok w2 =>
    if jsRaises then Except.error w2
    else Except.ok { w2 with cleanDir := w.cleanDir }

/-- C2 counterexample: when the first per-locale build raises, the
exception propagates with `clean_directory` still bound to the no-op — the
original is not restored on that exit path. -/
theorem C2_counterexample :
    onPostBuildCleanDir [true] false { cleanDir := CleanDirFn.original } =
      Except.error { cleanDir := CleanDirFn.noop } ∧
    CleanDirFn.noop ≠ CleanDirFn.original := by
  exact ⟨rfl, by decide⟩

theorem runLocaleBuilds_spec (rs : List Bool) (w : BuildWorld) :
    runLocaleBuilds rs w =
      if rs.any (fun b => b) then Except.error w else Except.ok w := by
  induction rs with
  | nil => rfl
  | cons r rs ih =>
    cases r with
    | true => simp [runLocaleBuilds]
    | false => simp [runLocaleBuilds, ih]

/-- C2 (amended): `mkdocs.utils.clean_directory` is restored to its saved
value only on the normal-completion exit path of `on_post_build`; on every
exceptional exit (a per-locale build or the JavaScript patching raising)
the no-op replacement is still installed when the exception propagates. -/
theorem C2_amended (buildRaises : List Bool) (jsRaises : Bool)
    (w : BuildWorld) :
    onPostBuildCleanDir buildRaises jsRaises w =
      if buildRaises.any (fun b => b) || jsRaises then
        Except.error { cleanDir := CleanDirFn.noop }
      else
        Except.ok { cleanDir := w.cleanDir } := by
  rw [onPostBuildCleanDir, runLocaleBuilds_spec]
  by_cases hb : buildRaises.any (fun b => b) = true
  · simp [hb]
  · simp only [Bool.not_eq_true] at hb
    cases jsRaises with
    | true => simp [hb]
    | false => simp [hb]

/-! ### The hook-stripping loop (`plugin.py` 256-267) -/

/-- A registered plugin event handler as the loop sees it: whether it is a
bound method (`hasattr(event, "__self__")`), the class of its bound
instance (`event.__self__.__class__`, as a token), and the instance
identity itself. -/
structure PyEvent where
  bound : Bool
  cls : Nat
  inst : Nat
  deriving DecidableEq

/-- Test `event.__self__.__class__ is self.__class__` for a bound event. -/
def isI18nEvent (i18nCls : Nat) (e : PyEvent) : Bool :=
  e.bound && (e.cls == i18nCls)

/-- The inner loop at lines 258-264: scan the event group with
`enumerate`, skip unbound callables, `pop` the first handler bound to an
instance of the plugin's class, and `break`. -/
def stripFirstI18n (i18nCls : Nat) : List PyEvent → List PyEvent
  | [] => []
  | e :: es =>
    if isI18nEvent i18nCls e then es else e :: stripFirstI18n i18nCls es

theorem countP_stripFirstI18n (i18nCls : Nat) (g : List PyEvent)
    (h : g.countP (fun e => isI18nEvent i18nCls e) ≤ 1) :
    (stripFirstI18n i18nCls g).countP (fun e => isI18nEvent i18nCls e) = 0 := by
  induction g with
  | nil => rfl
  | cons e es ih =>
    by_cases hb : isI18nEvent i18nCls e = true
    · simp only [stripFirstI18n, hb, if_true]
      rw [List.countP_cons, hb] at h
      simp only [if_true] at h
      omega
    · simp only [stripFirstI18n, hb, Bool.false_eq_true, if_false]
      rw [List.countP_cons] at h ⊢
      simp only [hb, Bool.false_eq_true, if_false] at h ⊢
      rw [ih (by omega)]

/-- C4: for a freshly loaded internal configuration — at most one handler
bound to an I18n instance per event group — the stripping loop removes
every such handler, so after the original plugin instance is re-registered
(appending at most one I18n-bound handler per group) each group holds at
most one handler bound to an I18n instance, and every such handler is one
of the re-registered ones: two plugin instances never both run. -/
theorem C4_single_instance (i18nCls : Nat) (g app : List PyEvent)
    (hg : g.countP (fun e => isI18nEvent i18nCls e) ≤ 1)
    (happ : app.countP (fun e => isI18nEvent i18nCls e) ≤ 1) :
    (stripFirstI18n i18nCls g ++ app).countP
        (fun e => isI18nEvent i18nCls e) ≤ 1 ∧
    ∀ e ∈ stripFirstI18n i18nCls g ++ app,
      isI18nEvent i18nCls e = true → e ∈ app := by
  have hz := countP_stripFirstI18n i18nCls g hg
  constructor
  · rw [List.countP_append, hz]
    omega
  · intro e he hi
    rw [List.mem_append] at he
    rcases he with he | he
    · rw [List.countP_eq_zero] at hz
      exact absurd hi (hz e he)
    · exact he

/-- Witness for `C4_single_instance`: a fresh group holding the new
instance's handler plus an unbound hook and a foreign plugin's handler;
the original instance's handler is re-registered. -/
theorem C4_witness :
    (stripFirstI18n 7 ([⟨true, 7, 1⟩, ⟨false, 0, 0⟩, ⟨true, 3, 2⟩] :
          List PyEvent) ++ ([⟨true, 7, 0⟩] : List PyEvent)).countP
        (fun e => isI18nEvent 7 e) ≤ 1 ∧
    ∀ e ∈ stripFirstI18n 7 ([⟨true, 7, 1⟩, ⟨false, 0, 0⟩, ⟨true, 3, 2⟩] :
          List PyEvent) ++ ([⟨true, 7, 0⟩] : List PyEvent),
      isI18nEvent 7 e = true → e ∈ ([⟨true, 7, 0⟩] : List PyEvent) :=
  C4_single_instance 7 [⟨true, 7, 1⟩, ⟨false, 0, 0⟩, ⟨true, 3, 2⟩]
    [⟨true, 7, 0⟩] (by decide) (by decide)

/-! ### `on_template_context` (`plugin.py` 155-166) -/

/-- Values stored in a template context. -/
inductive CtxVal
  | strV (s : String)
  | strListV (l : List String)
  | altV (a : List (String × List String))
  | cfgV (n : Nat)
  deriving DecidableEq

/-- Python dict assignment `context[k] = v`, modelled so that lookups see
the newest binding for a key. -/
def ctxSet (k : String) (v : CtxVal) (ctx : List (String × CtxVal)) :
    List (String × CtxVal) :=
  (k, v) :: ctx

/-- The plugin attributes read by `on_template_context`. -/
structure PluginState where
  build_languages : List String
  current_language : String
  current_language_config : Nat
  i18n_alternates : List (String × List String)

/-- Hook `on_template_context` (lines 155-166): adds the four i18n keys to the
context and returns it. -/
def onTemplateContext (st : PluginState) (ctx : List (String × CtxVal)) :
    List (String × CtxVal) :=
  ctxSet ("i18n_alternates") (CtxVal.altV st.i18n_alternates)
    (ctxSet ("i18n_current_language") (CtxVal.strV st.current_language)
      (ctxSet ("i18n_current_language_config")
        (CtxVal.cfgV st.current_language_config)
        (ctxSet ("i18n_build_languages")
          (CtxVal.strListV st.build_languages) ctx)))

/-- The assignment `self.i18n_alternates = self.reconfigure_alternates(...)`
performed by `on_files` (line 77); the computation of the alternates map
lives in the external `reconfigure` module and is abstracted as the
argument. -/
def onFilesSetAlternates (alt : List (String × List String))
    (st : PluginState) : PluginState :=
  { st with i18n_alternates := alt }

/-- C7: every context returned by `on_template_context` binds
`i18n_build_languages` to the plugin's build-language list,
`i18n_current_language` to its current language and `i18n_alternates` to
its alternates attribute — which is exactly the map stored by `on_files`. -/
theorem C7_template_context (st : PluginState) (ctx : List (String × CtxVal))
    (alt : List (String × List String)) :
    List.lookup ("i18n_build_languages") (onTemplateContext st ctx) =
      some (CtxVal.strListV st.build_languages) ∧
    List.lookup ("i18n_current_language") (onTemplateContext st ctx) =
      some (CtxVal.strV st.current_language) ∧
    List.lookup ("i18n_alternates") (onTemplateContext st ctx) =
      some (CtxVal.altV st.i18n_alternates) ∧
    List.lookup ("i18n_alternates")
        (onTemplateContext (onFilesSetAlternates alt st) ctx) =
      some (CtxVal.altV alt) :=
  ⟨rfl, rfl, rfl, rfl⟩

/-! ### `on_post_template` / `on_post_page` (`plugin.py` 168-182, 199-214) -/

/-- One entry of `self.config.languages`. -/
structure LangEntry where
  locale : String
  link : String
  deriving DecidableEq

/-- The plugin attributes read by `on_post_template` and `on_post_page`. -/
structure TplState where
  current_language : String
  languages : List LangEntry

/-- Lookup `next(filter(lambda l: l.locale == self.current_language,
self.config.languages))` — `next` on an exhausted filter raises
`StopIteration`, modelled by `none`. -/
def currentLangEntry (st : TplState) : Option LangEntry :=
  st.languages.find? (fun l => l.locale == st.current_language)

def scriptPat : List Char := ("<script").toList

/-- The f-string `'<script>let i18n_link = "{link}";</script><script'`
substituted for the first `<script` occurrence. -/
def i18nScriptIns (link : List Char) : List Char :=
  ("<script>let i18n_link = \"").toList ++ link ++
    ("\";</script><script").toList

/-- The actual inserted element (the replacement minus the restored
`<script` tail). -/
def i18nScriptElem (link : List Char) : List Char :=
  ("<script>let i18n_link = \"").toList ++ link ++ ("\";</script>").toList

theorem i18nScriptIns_eq (link : List Char) :
    i18nScriptIns link = i18nScriptElem link ++ scriptPat := by
  have hb : ("\";</script><script").toList =
      ("\";</script>").toList ++ ("<script").toList := by decide
  rw [i18nScriptIns, i18nScriptElem, hb, scriptPat]
  simp [List.append_assoc]

/-- Hook `on_post_template` (lines 168-182): `sitemap.xml` is answered with
`None` before anything else; otherwise the current language is looked up
(`StopIteration` when absent) and the i18n script is spliced in front of
the first `<script` of the output. -/
def onPostTemplate (st : TplState) (templateName : String)
    (output : List Char) : Except Unit (Option (List Char)) :=
  if templateName == "sitemap.xml" then Except.ok none
  else
    match currentLangEntry st with
    | none => Except.error ()
    | some lang =>
      Except.ok (some (replace1 scriptPat
        (i18nScriptIns (replaceAll (("./").toList) [] lang.link.toList))
        output))

/-- Hook `on_post_page` (lines 199-214): same splice, applied to every page
(the `with-pdf` trigger has no effect on the returned output). -/
def onPostPage (st : TplState) (output : List Char) :
    Except Unit (List Char) :=
  match currentLangEntry st with
  | none => Except.error ()
  | some lang =>
    Except.ok (replace1 scriptPat
      (i18nScriptIns (replaceAll (("./").toList) [] lang.link.toList))
      output)

theorem replace1_of_not_infix {pat : List Char} (n : List Char)
    {s : List Char} (h : ¬ pat <:+: s) : replace1 pat n s = s := by
  induction s with
  | nil => rfl
  | cons c t ih =>
    have hnp : ¬ pat <+: (c :: t) := fun hp => h (prefix_inf hp)
    simp only [replace1]
    rw [if_neg, ih (fun hi => h ( List.infix_cons hi))]
    simp only [Bool.and_eq_true, Bool.not_eq_true', List.isPrefixOf_iff_prefix,
      List.isEmpty_eq_false]
    intro hc
    exact hnp hc.2

/-- Function `replace1` rewrites exactly the first occurrence of the pattern:
the text splits as `a ++ pat ++ b` with `a` shortest possible, the result
is `a ++ n ++ b`, and the tail `b` is copied verbatim. -/
theorem replace1_first {pat : List Char} (n : List Char) :
    ∀ {s : List Char}, pat ≠ [] → pat <:+: s →
      ∃ a b, s = a ++ pat ++ b ∧ replace1 pat n s = a ++ n ++ b ∧
        ∀ a2 b2, s = a2 ++ pat ++ b2 → a.length ≤ a2.length := by
  intro s
  induction s with
  | nil =>
    intro h0 hinf
    exact absurd ( List.infix_nil.mp hinf) h0
  | cons c t ih =>
    intro h0 hinf
    by_cases hp : pat <+: (c :: t)
    · obtain ⟨r, hr⟩ := hp
      refine ⟨[], r, by simpa using hr.symm, ?_, fun a2 b2 _ => Nat.zero_le _⟩
      simp only [replace1]
      rw [if_pos]
      · have hdrop : (c :: t).drop pat.length = r := by
          rw [← hr]
          exact List.drop_left pat r
        rw [hdrop]
        simp
      · simp only [Bool.and_eq_true, Bool.not_eq_true',
          List.isPrefixOf_iff_prefix, List.isEmpty_eq_false]
        exact ⟨h0, ⟨r, hr⟩⟩
    · have hinf' : pat <:+: t := by
        rw [ List.infix_cons_iff] at hinf
        exact hinf.resolve_left hp
      obtain ⟨a, b, hsplit, heq, hmin⟩ := ih h0 hinf'
      refine ⟨c :: a, b, by simp [hsplit], ?_, ?_⟩
      · have hnc : ¬(!pat.isEmpty && pat.isPrefixOf (c :: t)) = true := by
          simp only [Bool.and_eq_true, Bool.not_eq_true',
            List.isPrefixOf_iff_prefix, List.isEmpty_eq_false]
          intro hc
          exact hp hc.2
        simp only [replace1]
        rw [if_neg hnc, heq]
        simp [List.append_assoc]
      · intro a2 b2 h2
        match a2 with
        | [] =>
          exact absurd ⟨b2, by simpa using h2.symm⟩ hp
        | d :: a3 =>
          have h2' : c :: t = d :: (a3 ++ pat ++ b2) := h2
          injection h2' with hcd h2b
          have := hmin a3 b2 h2b
          simp only [List.length_cons]
          omega

/-- C9: `on_post_template` answers `None` exactly for the `sitemap.xml`
template; for any other template — and for every page via `on_post_page` —
the returned output is the input with a single i18n_link-defining script
element spliced in front of the first `<script` occurrence only (the tail
after it, hence every later occurrence, is copied verbatim), and an output
without `<script` is returned unchanged. -/
theorem C9_script_insertion (st : TplState) (tn : String) (out : List Char)
    (lang : LangEntry) (hlang : currentLangEntry st = some lang)
    (htn : tn ≠ "sitemap.xml") :
    (∀ o2 : List Char,
        onPostTemplate st ("sitemap.xml") o2 = Except.ok none) ∧
    (∀ (o2 : List Char) (r : Option (List Char)),
        onPostTemplate st tn o2 = Except.ok r → r ≠ none) ∧
    onPostTemplate st tn out = Except.ok (some (replace1 scriptPat
      (i18nScriptIns (replaceAll (("./").toList) [] lang.link.toList))
      out)) ∧
    onPostPage st out = Except.ok (replace1 scriptPat
      (i18nScriptIns (replaceAll (("./").toList) [] lang.link.toList))
      out) ∧
    (¬ scriptPat <:+: out →
      replace1 scriptPat
        (i18nScriptIns (replaceAll (("./").toList) [] lang.link.toList))
        out = out) ∧
    (scriptPat <:+: out →
      ∃ a b, out = a ++ scriptPat ++ b ∧
        replace1 scriptPat
            (i18nScriptIns (replaceAll (("./").toList) [] lang.link.toList))
            out =
          a ++ i18nScriptElem
              (replaceAll (("./").toList) [] lang.link.toList) ++
            scriptPat ++ b ∧
        ∀ a2 b2, out = a2 ++ scriptPat ++ b2 → a.length ≤ a2.length) := by
  have hbe : (tn == "sitemap.xml") = false := by
    simp only [beq_eq_false_iff_ne, ne_eq]
    exact htn
  refine ⟨?_, ?_, ?_, ?_, ?_, ?_⟩
  · intro o2
    simp [onPostTemplate]
  · intro o2 r h
    simp only [onPostTemplate, hbe, Bool.false_eq_true, if_false, hlang] at h
    injection h with h2
    rw [← h2]
    simp
  · simp only [onPostTemplate, hbe, Bool.false_eq_true, if_false, hlang]
  · simp only [onPostPage, hlang]
  · intro hni
    exact replace1_of_not_infix _ hni
  · intro hocc
    obtain ⟨a, b, hsp, heq, hmin⟩ :=
      replace1_first (i18nScriptIns
        (replaceAll (("./").toList) [] lang.link.toList))
        (by decide) hocc
    refine ⟨a, b, hsp, ?_, hmin⟩
    rw [heq, i18nScriptIns_eq]
    simp [List.append_assoc]

/-- A concrete plugin state for witnesses: current language `fr` with
`link = "./fr/"`. -/
def demoTplState : TplState :=
  { current_language := "fr",
    languages := [{ locale := "en", link := "./" },
                  { locale := "fr", link := "./fr/" }] }

def demoOut : List Char :=
  ("<body><script src=\"a.js\"></script><script>1</script></body>").toList

/-- Witness for `C9_script_insertion` at a concrete state and output. -/
theorem C9_witness :
    onPostTemplate demoTplState ("main.html") demoOut =
      Except.ok (some (replace1 scriptPat
        (i18nScriptIns (replaceAll (("./").toList) []
          (({ locale := "fr", link := "./fr/" } : LangEntry)).link.toList))
        demoOut)) :=
  (C9_script_insertion demoTplState ("main.html") demoOut
    { locale := "fr", link := "./fr/" } (by decide) (by decide)).2.2.1

/-- C10: for non-sitemap templates and for pages, the `next(filter(...))`
lookup succeeds — no exception — exactly when some configured language
entry has the current locale; when no entry matches, the hooks raise
(`StopIteration`, the `error` result). -/
theorem C10_language_lookup (st : TplState) (tn : String) (out : List Char)
    (htn : tn ≠ "sitemap.xml") :
    ((∃ l ∈ st.languages, l.locale = st.current_language) →
      (∃ r, onPostTemplate st tn out = Except.ok r) ∧
      (∃ r, onPostPage st out = Except.ok r)) ∧
    ((∀ l ∈ st.languages, l.locale ≠ st.current_language) →
      onPostTemplate st tn out = Except.error () ∧
      onPostPage st out = Except.error ()) := by
  have hbe : (tn == "sitemap.xml") = false := by
    simp only [beq_eq_false_iff_ne, ne_eq]
    exact htn
  constructor
  · intro hex
    have hsome : (currentLangEntry st).isSome = true := by
      rw [currentLangEntry, List.find?_isSome]
      obtain ⟨l, hl, he⟩ := hex
      exact ⟨l, hl, by simpa using he⟩
    obtain ⟨lang, hlang⟩ := Option.isSome_iff_exists.mp hsome
    constructor
    · refine ⟨some (replace1 scriptPat
        (i18nScriptIns (replaceAll (("./").toList) [] lang.link.toList))
        out), ?_⟩
      simp only [onPostTemplate, hbe, Bool.false_eq_true, if_false, hlang]
    · refine ⟨replace1 scriptPat
        (i18nScriptIns (replaceAll (("./").toList) [] lang.link.toList))
        out, ?_⟩
      simp only [onPostPage, hlang]
  · intro hall
    have hnone : currentLangEntry st = none := by
      rw [currentLangEntry, List.find?_eq_none]
      intro l hl
      simp only [beq_eq_false_iff_ne, ne_eq, Bool.not_eq_true]
      exact fun he => hall l hl (by simpa using he)
    constructor
    · simp only [onPostTemplate, hbe, Bool.false_eq_true, if_false, hnone]
    · simp only [onPostPage, hnone]

/-- A state whose current language matches no configured entry. -/
def noMatchTplState : TplState :=
  { current_language := "de",
    languages := [{ locale := "en", link := "./" }] }

/-- Witness for `C10_language_lookup`: the mismatching state raises on
both hooks. -/
theorem C10_witness :
    onPostTemplate noMatchTplState ("main.html") demoOut =
      Except.error () ∧
    onPostPage noMatchTplState demoOut = Except.error () :=
  (C10_language_lookup noMatchTplState ("main.html") demoOut
    (by decide)).2 (by decide)
